import Mathlib

/-!
Verification of the gitlab-activity-tracker reconciliation and attribution core.

Shallow embedding of `src/day_activity_2.js` (the later, canonical script variant).
JavaScript objects become Lean structures; network fetches become explicit input
data (`ProjectData` carries, for each merge request and branch, the commit list the
paginated API would have returned); `fs` state becomes an explicit `PriorFile`
value; `Set` becomes a Lean list used only through membership; dates, which the
script only ever compares through `new Date(x) - new Date(y)` (numeric comparison
of parsed timestamps), are embedded as their parsed numeric instants (`Int`);
per the data-model contract every activity's `date` is a parseable timestamp.
-/

/-- An activity record as built by the script.  JavaScript objects are dynamic;
the embedding carries every field any code path reads, with `Option` standing
for `null`/`undefined`/absent.  `type` is the string tag the script compares
against `"Commit"` and `"Merge Request"`. -/
structure Activity where
  type : String
  date : Int
  sha : Option String := none
  branch : Option String := none
  target_branch : Option String := none
  title : String := ""
  from_merge_request : Bool := false
  mr_source : Option String := none
  mr_target : Option String := none
  source : Option String := none
  target : Option String := none
  iid : Option Nat := none
  project : Option String := none
deriving DecidableEq

/-- A raw commit object as returned by the GitLab API (the fields the script
reads: `id`, `title`, `created_at`, `author_email`).  `created_at` is embedded
as its parsed numeric instant. -/
structure RawCommit where
  id : String
  title : String
  created_at : Int
  author_email : String
deriving DecidableEq

/-- A merge request after `getMergeRequests` mapping: `{iid, sha, source, target,
title, date}` where `sha` is `merge_commit_sha` (null when not merged). -/
structure MergeReq where
  iid : Nat
  sha : Option String := none
  source : String
  target : String
  title : String := ""
  date : Int
deriving DecidableEq

/-- One project's fetched data, as the sequential fetch loops of the script
would observe it: each merge request paired with the commit list of
`/merge_requests/<iid>/commits`, and each branch name paired with the commit
list of `/repository/commits?ref_name=<branch>`. -/
structure ProjectData where
  name : String
  mrs : List (MergeReq × List RawCommit)
  branches : List (String × List RawCommit)

/-! ## The merge-commit title regex

`commit.title.match(/Merge branch '(.+?)'.*into (.+)/)` embedded with JavaScript
regex semantics: leftmost starting position wins; the lazy group `(.+?)` takes
the shortest length that lets the remainder match; `.*` is greedy (longest
`into ` occurrence wins); `(.+)` is greedy with nothing after it, so it takes
the maximal run of `.`-matching characters and must be non-empty; `.` matches
every character except the four JavaScript line terminators. -/

/-- The characters `.` does not match in a JavaScript regex:
LF, CR, U+2028, U+2029. -/
def dotChar (c : Char) : Bool :=
  decide (c ≠ Char.ofNat 10 ∧ c ≠ Char.ofNat 13 ∧ c ≠ Char.ofNat 8232 ∧ c ≠ Char.ofNat 8233)

/-- The single-quote character (written via its code point to keep the
embedding free of escape sequences). -/
def quoteChar : Char := Char.ofNat 39

/-- The literal `Merge branch '` that must precede the lazy group. -/
def mergeLit : List Char := "Merge branch ".toList ++ [quoteChar]

/-- The literal `into ` preceding the second capture group. -/
def intoLit : List Char := "into ".toList

/-- Matches `.*into (.+)` against `r` with greedy backtracking: prefer letting
`.*` consume the current character (so the deepest, i.e. last, `into ` wins);
at the chosen position `(.+)` takes the maximal non-empty run of `.`-characters. -/
def restMatch : List Char → Option (List Char)
  | [] => none
  | c :: cs =>
    match (if dotChar c then restMatch cs else none) with
    | some g2 => some g2
    | none =>
      if intoLit.isPrefixOf (c :: cs) then
        if ((c :: cs).drop 5).takeWhile dotChar = [] then none
        else some (((c :: cs).drop 5).takeWhile dotChar)
      else none

/-- Tries to close the lazy group right here: the next character must be the
quote, and `.*into (.+)` must match what follows. -/
def closeHere : List Char → Option (List Char)
  | [] => none
  | q :: r => if q = quoteChar then restMatch r else none

/-- Matches `(.+?)'.*into (.+)` against the input: the lazy group grows one
`.`-character at a time, preferring to close at the earliest quote at which the
remainder matches.  Returns `(group1, group2)`. -/
def lazySplit : List Char → Option (List Char × List Char)
  | [] => none
  | c :: cs =>
    if dotChar c then
      match closeHere cs with
      | some g2 => some ([c], g2)
      | none =>
        match lazySplit cs with
        | some (g1, g2) => some (c :: g1, g2)
        | none => none
    else none

/-- The whole regex against a character list: scan starting positions left to
right; at each position the literal must match and then `lazySplit` the rest. -/
def jsMergeMatchL : List Char → Option (List Char × List Char)
  | [] => none
  | c :: cs =>
    if mergeLit.isPrefixOf (c :: cs) then
      match lazySplit ((c :: cs).drop mergeLit.length) with
      | some res => some res
      | none => jsMergeMatchL cs
    else jsMergeMatchL cs

/-- `title.match(/Merge branch '(.+?)'.*into (.+)/)`, returning the two capture
groups on success. -/
def jsMergeMatch (s : String) : Option (List Char × List Char) :=
  jsMergeMatchL s.toList

/-! ## Branch attribution (`getCommitsWithCorrectBranch`)

The script runs two passes over the project's commits with one shared
`seenCommits` set: first every merge request's own commit list (attribution
from the merge request), then every branch's commit list (attribution from the
branch walk, consulting the merge-title regex).  A commit is pushed only when
`commit.author_email === userEmail && !seenCommits.has(commit.id)`.  The
embedding flattens the two nested loops into one stream of
`(author_email, id, activity-it-would-push)` triples, in the source's exact
iteration order, and folds the seen-set over it. -/

/-- `x || y` on JavaScript strings: the empty string is falsy. -/
def jsOrStr (s fallback : String) : String :=
  if s = "" then fallback else s

/-- The activity pushed for a commit found in a merge request's commit list. -/
def mrCommitActivity (mr : MergeReq) (c : RawCommit) : Activity :=
  { type := "Commit", branch := some mr.source, target_branch := some mr.target,
    title := c.title, date := c.created_at, sha := some c.id,
    from_merge_request := true, mr_source := some mr.source, mr_target := some mr.target }

/-- The activity pushed for a commit found by walking branch `branchName`:
if the title matches the merge regex, both displayed branch and target branch
become capture group 2 (falling back to the physical branch name when that
group is the empty string, mirroring `mergeMatch[2] || branch.name`);
otherwise the physical branch name with a null target. -/
def branchWalkEntry (branchName : String) (c : RawCommit) : Activity :=
  match jsMergeMatch c.title with
  | some (_, g2) =>
    { type := "Commit", branch := some (jsOrStr (String.mk g2) branchName),
      target_branch := some (jsOrStr (String.mk g2) branchName),
      title := c.title, date := c.created_at, sha := some c.id,
      from_merge_request := false, mr_source := none, mr_target := none }
  | none =>
    { type := "Commit", branch := some branchName, target_branch := none,
      title := c.title, date := c.created_at, sha := some c.id,
      from_merge_request := false, mr_source := none, mr_target := none }

/-- Pass 1 stream: each merge request's commit list, in order. -/
def mrStream (p : ProjectData) : List (String × String × Activity) :=
  p.mrs.flatMap fun mrc => mrc.2.map fun c => (c.author_email, c.id, mrCommitActivity mrc.1 c)

/-- Pass 2 stream: each branch's commit list, in order. -/
def branchStream (p : ProjectData) : List (String × String × Activity) :=
  p.branches.flatMap fun br => br.2.map fun c => (c.author_email, c.id, branchWalkEntry br.1 c)

/-- Both passes, merge requests first (the source's order). -/
def commitStream (p : ProjectData) : List (String × String × Activity) :=
  mrStream p ++ branchStream p

/-- The `seenCommits` fold: push an element only when the author matches the
configured user and its id is not yet in the seen set, then record the id. -/
def dedupCollect (u : String) : List String → List (String × String × Activity) → List Activity
  | _, [] => []
  | seen, (em, i, a) :: rest =>
    if em = u ∧ i ∉ seen then a :: dedupCollect u (i :: seen) rest
    else dedupCollect u seen rest

/-- `getCommitsWithCorrectBranch(projectId, userEmail, mergeRequests)` over the
project's fetched data. -/
def getCommitsWithCorrectBranch (u : String) (p : ProjectData) : List Activity :=
  dedupCollect u [] (commitStream p)

/-- The activity `main` pushes for a merge request:
`{...mr, type: "Merge Request", project}`. -/
def mrActivity (projectName : String) (mr : MergeReq) : Activity :=
  { type := "Merge Request", iid := some mr.iid, sha := mr.sha,
    source := some mr.source, target := some mr.target, title := mr.title,
    date := mr.date, project := some projectName }

/-- One iteration of `main`'s project loop: merge-request activities pushed
first, then the commits with `c.project` set. -/
def projectActivities (u : String) (p : ProjectData) : List Activity :=
  (p.mrs.map fun mrc => mrActivity p.name mrc.1) ++
    ((getCommitsWithCorrectBranch u p).map fun c => { c with project := some p.name })

/-- `main`'s whole collection phase: `allActivities` over all projects. -/
def collectAll (u : String) (ps : List ProjectData) : List Activity :=
  ps.flatMap (projectActivities u)

/-! ## Reconciliation (`extractExistingFromJson` / `saveAsJson`) -/

/-- Stringify an optional field the way a template literal does:
`undefined` renders as `"undefined"`. -/
def jsField : Option String → String
  | none => "undefined"
  | some s => s

/-- The merge-request identity key `` `${item.source} → ${item.target}` ``. -/
def mrKey (a : Activity) : String :=
  jsField a.source ++ " → " ++ jsField a.target

/-- The sha values the `forEach` over prior activities adds to `existing.shas`
(every item with `type === "Commit"`, in order). -/
def commitShaList (l : List Activity) : List (Option String) :=
  (l.filter fun a => decide (a.type = "Commit")).map (·.sha)

/-- The keys the `forEach` adds to `existing.mrs`
(every item with `type === "Merge Request"`, in order). -/
def mrKeyList (l : List Activity) : List String :=
  (l.filter fun a => decide (a.type = "Merge Request")).map mrKey

/-- The `data.filter` predicate of `saveAsJson`: a Commit is kept when its sha
is not among the prior commit shas, a Merge Request when its key is not among
the prior keys, and any other `type` is always kept (`return true`). -/
def keepItem (prior : List Activity) (item : Activity) : Bool :=
  if item.type = "Commit" then decide (item.sha ∉ commitShaList prior)
  else if item.type = "Merge Request" then decide (mrKey item ∉ mrKeyList prior)
  else true

/-- The comparator `(a, b) => new Date(b.date) - new Date(a.date)` sorts
descending by the numeric instant; as a relation: `a` may precede `b` when
`b.date ≤ a.date`. -/
def dateDescRel (a b : Activity) : Prop := b.date ≤ a.date

instance : DecidableRel dateDescRel :=
  fun a b => inferInstanceAs (Decidable (b.date ≤ a.date))

instance : IsTotal Activity dateDescRel :=
  ⟨fun a b => le_total b.date a.date⟩

instance : IsTrans Activity dateDescRel :=
  ⟨fun _ _ _ h1 h2 => le_trans h2 h1⟩

/-- `Array.prototype.sort` with the numeric date comparator: a stable sort
(guaranteed by the ECMAScript specification) under a consistent comparator is
uniquely determined, so insertion sort embeds it exactly. -/
def sortByDateDesc (l : List Activity) : List Activity :=
  List.insertionSort dateDescRel l

/-- The core of `saveAsJson` after the prior state has been loaded: filter the
new batch against the prior identity sets; if nothing is new and the prior
record is non-empty, return the prior record without writing; otherwise sort
the concatenation and write.  Returns `(filteredData, allData, wrote)`. -/
def reconcileCore (newBatch prior : List Activity) :
    List Activity × List Activity × Bool :=
  if newBatch.filter (keepItem prior) = [] ∧ prior ≠ [] then
    (newBatch.filter (keepItem prior), prior, false)
  else
    (newBatch.filter (keepItem prior),
      sortByDateDesc (prior ++ newBatch.filter (keepItem prior)), true)

/-- The delta (`filteredData`) of a reconciliation. -/
def reconcileDelta (newBatch prior : List Activity) : List Activity :=
  (reconcileCore newBatch prior).1

/-- The full record (`allData`, or the short-circuited `existing.data`). -/
def reconcileFull (newBatch prior : List Activity) : List Activity :=
  (reconcileCore newBatch prior).2.1

/-- Whether `saveAsJson` rewrote the structured-record file. -/
def reconcileWrote (newBatch prior : List Activity) : Bool :=
  (reconcileCore newBatch prior).2.2

/-- The three observable conditions of the prior structured-record file:
absent, present but `JSON.parse`/shape fails, or parsed with an optional
`activities` array. -/
inductive PriorFile where
  | absent
  | unparseable
  | parsed (activities : Option (List Activity))

/-- The value `extractExistingFromJson` builds: the identity sets, the prior
data, and whether the parse-failure warning was printed. -/
structure Existing where
  shas : List (Option String)
  mrs : List String
  data : List Activity
  warned : Bool
deriving DecidableEq

/-- `extractExistingFromJson`: an absent file returns the empty value before
any read; an unparseable file is caught by the `try`/`catch`, warns, and
returns the empty value (the run continues — the embedding is total); a parsed
file without an `activities` field contributes nothing; otherwise the
`forEach` fills the sets exactly as `commitShaList`/`mrKeyList` describe. -/
def extractExistingFromJson : PriorFile → Existing
  | .absent => ⟨[], [], [], false⟩
  | .unparseable => ⟨[], [], [], true⟩
  | .parsed none => ⟨[], [], [], false⟩
  | .parsed (some acts) => ⟨commitShaList acts, mrKeyList acts, acts, false⟩

/-- `saveAsJson(data, filename)`: load prior state, reconcile, possibly write.
Returns the returned collection and whether the file was rewritten. -/
def saveAsJson (data : List Activity) (file : PriorFile) : List Activity × Bool :=
  let ex := extractExistingFromJson file
  ((reconcileCore data ex.data).2.1, (reconcileCore data ex.data).2.2)

/-! ## Markdown grouping and day ordering (`saveGroupedToMarkdown`)

`groupedByDay` is a plain object keyed by the formatted day label
(`dayjs(item.date).format("dddd, D MMMM YYYY")` under the `id` locale); string
keys enumerate in insertion order, so grouping preserves first-appearance order
of labels and appends within a group.  `Object.entries(...).sort(([a],[b]) =>
new Date(b) - new Date(a))` then orders the day sections by the numeric parse
of the *label string*; when a label does not parse (`Invalid Date`), the
subtraction is `NaN`, which `SortCompare` treats as `+0`.  The label formatter
and the label parser are parameters of the embedding: the day-ordering theorem
takes their observed behaviour as hypotheses. -/

/-- Insert an activity into the grouped object under `k`, preserving key
insertion order and appending within an existing group. -/
def addToGroup : List (String × List Activity) → String → Activity →
    List (String × List Activity)
  | [], k, a => [(k, [a])]
  | (k', l) :: rest, k, a =>
    if k' = k then (k', l ++ [a]) :: rest else (k', l) :: addToGroup rest k a

/-- `groupedByDay` built by the `forEach`, keyed by `format item.date`. -/
def groupByDay (format : Int → String) (data : List Activity) :
    List (String × List Activity) :=
  data.foldl (fun acc a => addToGroup acc (format a.date) a) []

/-- The comparator `new Date(b) - new Date(a)` on two day labels, where `parse`
is the host's string-to-timestamp parse (`none` = `Invalid Date`); any `NaN`
comparison becomes `+0` exactly as ECMAScript `SortCompare` prescribes. -/
def labelCmp (parse : String → Option Int) (a b : String) : Int :=
  match parse a, parse b with
  | some x, some y => y - x
  | _, _ => 0

/-- The sort relation induced by `labelCmp` on grouped entries. -/
def entryRel (parse : String → Option Int) (e1 e2 : String × List Activity) : Prop :=
  labelCmp parse e1.1 e2.1 ≤ 0

instance (parse : String → Option Int) : DecidableRel (entryRel parse) :=
  fun e1 e2 => inferInstanceAs (Decidable (labelCmp parse e1.1 e2.1 ≤ 0))

/-- The stable sort of the day sections, as `Object.entries(...).sort(...)`
performs it. -/
def sortEntries (parse : String → Option Int) (l : List (String × List Activity)) :
    List (String × List Activity) :=
  List.insertionSort (entryRel parse) l

/-- The ordered day sections `saveGroupedToMarkdown` emits for a batch that
survives the markdown-side filter. -/
def markdownDaySections (format : Int → String) (parse : String → Option Int)
    (data : List Activity) : List (String × List Activity) :=
  sortEntries parse (groupByDay format data)

/-! ## Helper lemmas about the seen-set fold -/

/-- Well-formedness of a collection stream: each element's pushed activity
carries exactly the element's commit id as its sha. -/
def streamWF (items : List (String × String × Activity)) : Prop :=
  ∀ x ∈ items, x.2.2.sha = some x.2.1

theorem streamWF_commitStream (p : ProjectData) : streamWF (commitStream p) := by
  intro x hx
  rcases List.mem_append.1 hx with h | h
  · rcases List.mem_flatMap.1 h with ⟨mrc, _, hx2⟩
    rcases List.mem_map.1 hx2 with ⟨c, _, rfl⟩
    rfl
  · rcases List.mem_flatMap.1 h with ⟨br, _, hx2⟩
    rcases List.mem_map.1 hx2 with ⟨c, _, rfl⟩
    cases hm : jsMergeMatch c.title with
    | none => simp [branchWalkEntry, hm]
    | some g => cases g with
      | mk g1 g2 => simp [branchWalkEntry, hm]

theorem dedupCollect_subset (u : String) :
    ∀ (items : List (String × String × Activity)) (seen : List String),
      ∀ e ∈ dedupCollect u seen items, ∃ x ∈ items, x.1 = u ∧ e = x.2.2
  | [], _, e, he => by simp [dedupCollect] at he
  | (em, i, a) :: rest, seen, e, he => by
    simp only [dedupCollect] at he
    split at he
    · rename_i hcond
      rcases List.mem_cons.1 he with heq | he'
      · exact ⟨(em, i, a), List.mem_cons_self .., hcond.1, heq⟩
      · rcases dedupCollect_subset u rest (i :: seen) e he' with ⟨x, hx, hxu, hxe⟩
        exact ⟨x, List.mem_cons_of_mem _ hx, hxu, hxe⟩
    · rcases dedupCollect_subset u rest seen e he with ⟨x, hx, hxu, hxe⟩
      exact ⟨x, List.mem_cons_of_mem _ hx, hxu, hxe⟩

/-- Once an id is in the seen set, no later element with that sha is pushed. -/
theorem dedupCollect_seen (u X : String) :
    ∀ (items : List (String × String × Activity)) (seen : List String),
      streamWF items → X ∈ seen →
      ∀ e ∈ dedupCollect u seen items, e.sha ≠ some X
  | [], _, _, _, e, he => by simp [dedupCollect] at he
  | (em, i, a) :: rest, seen, hwf, hX, e, he => by
    have hwf' : streamWF rest := fun x hx => hwf x (List.mem_cons_of_mem _ hx)
    simp only [dedupCollect] at he
    split at he
    · rename_i hcond
      rcases List.mem_cons.1 he with rfl | he'
      · have hsha : e.sha = some i := hwf (em, i, e) (List.mem_cons_self ..)
        have : i ≠ X := fun h => hcond.2 (h ▸ hX)
        simp [hsha, this]
      · exact dedupCollect_seen u X rest (i :: seen) hwf'
          (List.mem_cons_of_mem _ hX) e he'
    · exact dedupCollect_seen u X rest seen hwf' hX e he

/-- The first stream element with the given author and id. -/
def firstMatch (u X : String) : List (String × String × Activity) → Option Activity
  | [] => none
  | x :: rest => if x.1 = u ∧ x.2.1 = X then some x.2.2 else firstMatch u X rest

theorem firstMatch_isSome (u X : String) :
    ∀ (items : List (String × String × Activity)),
      (∃ x ∈ items, x.1 = u ∧ x.2.1 = X) → ∃ a, firstMatch u X items = some a
  | [], h => by simp at h
  | x :: rest, h => by
    by_cases hx : x.1 = u ∧ x.2.1 = X
    · exact ⟨x.2.2, by simp [firstMatch, hx]⟩
    · rcases h with ⟨y, hy, hyp⟩
      rcases List.mem_cons.1 hy with rfl | hy'
      · exact absurd hyp hx
      · rcases firstMatch_isSome u X rest ⟨y, hy', hyp⟩ with ⟨a, ha⟩
        exact ⟨a, by simp [firstMatch, hx, ha]⟩

theorem firstMatch_mem (u X : String) :
    ∀ (items : List (String × String × Activity)) (a : Activity),
      firstMatch u X items = some a →
      ∃ x ∈ items, x.1 = u ∧ x.2.1 = X ∧ a = x.2.2
  | [], a, h => by simp [firstMatch] at h
  | x :: rest, a, h => by
    by_cases hx : x.1 = u ∧ x.2.1 = X
    · simp only [firstMatch, if_pos hx] at h
      exact ⟨x, List.mem_cons_self .., hx.1, hx.2, (Option.some_inj.1 h).symm⟩
    · simp only [firstMatch, if_neg hx] at h
      rcases firstMatch_mem u X rest a h with ⟨y, hy, hprop⟩
      exact ⟨y, List.mem_cons_of_mem _ hy, hprop⟩

/-- When the first half of an appended stream already contains a matching
element, it determines the first match of the whole stream. -/
theorem firstMatch_append_left (u X : String) :
    ∀ (l1 l2 : List (String × String × Activity)),
      (∃ x ∈ l1, x.1 = u ∧ x.2.1 = X) →
      firstMatch u X (l1 ++ l2) = firstMatch u X l1
  | [], _, h => by simp at h
  | x :: rest, l2, h => by
    by_cases hx : x.1 = u ∧ x.2.1 = X
    · simp [firstMatch, hx]
    · rcases h with ⟨y, hy, hyp⟩
      rcases List.mem_cons.1 hy with rfl | hy'
      · exact absurd hyp hx
      · simp only [List.cons_append, firstMatch, if_neg hx]
        exact firstMatch_append_left u X rest l2 ⟨y, hy', hyp⟩

/-- Main characterization: below an unseen id, the output entries carrying sha
`X` are exactly the activity of the first matching stream element. -/
theorem dedupCollect_filter_eq (u X : String) :
    ∀ (items : List (String × String × Activity)) (seen : List String),
      streamWF items → X ∉ seen →
      (dedupCollect u seen items).filter (fun e => decide (e.sha = some X)) =
        (firstMatch u X items).toList
  | [], _, _, _ => by simp [dedupCollect, firstMatch]
  | (em, i, a) :: rest, seen, hwf, hX => by
    have hwf' : streamWF rest := fun x hx => hwf x (List.mem_cons_of_mem _ hx)
    have hsha : a.sha = some i := hwf (em, i, a) (List.mem_cons_self ..)
    simp only [dedupCollect, firstMatch]
    by_cases hpush : em = u ∧ i ∉ seen
    · rw [if_pos hpush]
      by_cases hi : i = X
      · subst hi
        rw [if_pos ⟨hpush.1, rfl⟩]
        have hrest : ∀ e ∈ dedupCollect u (i :: seen) rest, e.sha ≠ some i :=
          dedupCollect_seen u i rest (i :: seen) hwf' (List.mem_cons_self ..)
        have : (dedupCollect u (i :: seen) rest).filter
            (fun e => decide (e.sha = some i)) = [] := by
          rw [List.filter_eq_nil_iff]
          intro e he
          simpa using hrest e he
        simp [hsha, this]
      · rw [if_neg (by simp [hi])]
        have hX' : X ∉ i :: seen := by
          intro h
          rcases List.mem_cons.1 h with h1 | h1
          · exact hi h1.symm
          · exact hX h1
        have := dedupCollect_filter_eq u X rest (i :: seen) hwf' hX'
        simp only [List.filter_cons]
        rw [this]
        have : ¬ (a.sha = some X) := by simp [hsha, hi]
        simp [this]
    · rw [if_neg hpush]
      have hno : ¬ (em = u ∧ i = X) := by
        rintro ⟨rfl, rfl⟩
        rcases not_and_or.1 hpush with h | h
        · exact h rfl
        · exact hX (not_not.1 h)
      rw [if_neg hno]
      exact dedupCollect_filter_eq u X rest seen hwf' hX

/-- The seen-set fold yields pairwise-distinct shas, none of them already in
the seen set. -/
theorem dedupCollect_nodup (u : String) :
    ∀ (items : List (String × String × Activity)) (seen : List String),
      streamWF items →
      ((dedupCollect u seen items).map (·.sha)).Nodup ∧
        ∀ e ∈ dedupCollect u seen items, ∀ s ∈ seen, e.sha ≠ some s
  | [], _, _ => by simp [dedupCollect]
  | (em, i, a) :: rest, seen, hwf => by
    have hwf' : streamWF rest := fun x hx => hwf x (List.mem_cons_of_mem _ hx)
    have hsha : a.sha = some i := hwf (em, i, a) (List.mem_cons_self ..)
    simp only [dedupCollect]
    split
    · rename_i hcond
      rcases dedupCollect_nodup u rest (i :: seen) hwf' with ⟨hnd, hseen⟩
      constructor
      · simp only [List.map_cons, List.nodup_cons]
        refine ⟨?_, hnd⟩
        intro hmem
        rcases List.mem_map.1 hmem with ⟨e, he, hesha⟩
        exact hseen e he i (List.mem_cons_self ..) (by rw [hesha, hsha])
      · intro e he s hs
        rcases List.mem_cons.1 he with rfl | he'
        · have : i ≠ s := fun h => hcond.2 (h ▸ hs)
          simp [hsha, this]
        · exact hseen e he' s (List.mem_cons_of_mem _ hs)
    · rcases dedupCollect_nodup u rest seen hwf' with ⟨hnd, hseen⟩
      exact ⟨hnd, fun e he s hs => hseen e he s hs⟩

/-! ## Helper lemmas about the date sort -/

/-- Filtering one date class out of an ordered insertion: the inserted element
lands in front of its own date class (every element skipped by the insertion
has a strictly larger date), so per-date order is preserved. -/
theorem filter_orderedInsert_date (a : Activity) (d : Int) :
    ∀ l : List Activity,
      (List.orderedInsert dateDescRel a l).filter (fun x => decide (x.date = d)) =
        if a.date = d then
          a :: l.filter (fun x => decide (x.date = d))
        else l.filter (fun x => decide (x.date = d))
  | [] => by
    by_cases h : a.date = d <;> simp [List.orderedInsert, List.filter, h]
  | b :: t => by
    by_cases hab : dateDescRel a b
    · simp only [List.orderedInsert, if_pos hab]
      by_cases ha : a.date = d <;> simp [List.filter_cons, ha]
    · have hlt : a.date < b.date := lt_of_not_le hab
      simp only [List.orderedInsert, if_neg hab]
      rw [List.filter_cons, List.filter_cons, filter_orderedInsert_date a d t]
      by_cases ha : a.date = d
      · have hb : ¬ (b.date = d) := by intro h; omega
        simp [ha, hb]
      · by_cases hb : b.date = d <;> simp [ha, hb]

/-- Insertion sort is stable: it preserves the relative order of each date
class. -/
theorem filter_insertionSort_date (d : Int) :
    ∀ l : List Activity,
      (List.insertionSort dateDescRel l).filter (fun x => decide (x.date = d)) =
        l.filter (fun x => decide (x.date = d))
  | [] => rfl
  | a :: t => by
    simp only [List.insertionSort]
    rw [filter_orderedInsert_date a d (List.insertionSort dateDescRel t),
      filter_insertionSort_date d t, List.filter_cons]
    by_cases ha : a.date = d <;> simp [ha]

/-! ## Helper lemmas about reconciliation -/

theorem commitShaList_append (l1 l2 : List Activity) :
    commitShaList (l1 ++ l2) = commitShaList l1 ++ commitShaList l2 := by
  simp [commitShaList, List.filter_append]

theorem mrKeyList_append (l1 l2 : List Activity) :
    mrKeyList (l1 ++ l2) = mrKeyList l1 ++ mrKeyList l2 := by
  simp [mrKeyList, List.filter_append]

theorem commitShaList_perm {l1 l2 : List Activity} (h : l1.Perm l2) :
    (commitShaList l1).Perm (commitShaList l2) :=
  (h.filter _).map _

theorem mrKeyList_perm {l1 l2 : List Activity} (h : l1.Perm l2) :
    (mrKeyList l1).Perm (mrKeyList l2) :=
  (h.filter _).map _

theorem mem_commitShaList {s : Option String} {l : List Activity} :
    s ∈ commitShaList l ↔ ∃ a ∈ l, a.type = "Commit" ∧ a.sha = s := by
  simp only [commitShaList, List.mem_map, List.mem_filter, decide_eq_true_eq]
  constructor
  · rintro ⟨a, ⟨ha, hty⟩, rfl⟩
    exact ⟨a, ha, hty, rfl⟩
  · rintro ⟨a, ha, hty, rfl⟩
    exact ⟨a, ⟨ha, hty⟩, rfl⟩

theorem mem_mrKeyList {s : String} {l : List Activity} :
    s ∈ mrKeyList l ↔ ∃ a ∈ l, a.type = "Merge Request" ∧ mrKey a = s := by
  simp only [mrKeyList, List.mem_map, List.mem_filter, decide_eq_true_eq]
  constructor
  · rintro ⟨a, ⟨ha, hty⟩, rfl⟩
    exact ⟨a, ha, hty, rfl⟩
  · rintro ⟨a, ha, hty, rfl⟩
    exact ⟨a, ⟨ha, hty⟩, rfl⟩

/-- The delta is the filtered batch on both branches of the short-circuit. -/
theorem reconcileDelta_eq (newBatch prior : List Activity) :
    reconcileDelta newBatch prior = newBatch.filter (keepItem prior) := by
  unfold reconcileDelta reconcileCore
  by_cases h : newBatch.filter (keepItem prior) = [] ∧ prior ≠ []
  · rw [if_pos h]
  · rw [if_neg h]

/-- The full record is always a permutation of the prior record plus the
delta. -/
theorem reconcileFull_perm (newBatch prior : List Activity) :
    (reconcileFull newBatch prior).Perm (prior ++ reconcileDelta newBatch prior) := by
  rw [reconcileDelta_eq]
  unfold reconcileFull reconcileCore
  by_cases h : newBatch.filter (keepItem prior) = [] ∧ prior ≠ []
  · rw [if_pos h, h.1]
    simp
  · rw [if_neg h]
    exact List.perm_insertionSort dateDescRel _

/-- A kept Commit's sha is absent from the prior commit shas. -/
theorem keepItem_commit {prior : List Activity} {a : Activity}
    (hty : a.type = "Commit") (hk : keepItem prior a = true) :
    a.sha ∉ commitShaList prior := by
  simpa [keepItem, hty] using hk

/-- A kept Merge Request's key is absent from the prior keys. -/
theorem keepItem_mr {prior : List Activity} {a : Activity}
    (hty : a.type = "Merge Request") (hk : keepItem prior a = true) :
    mrKey a ∉ mrKeyList prior := by
  have hne : ¬ (a.type = "Commit") := by simp [hty]
  simpa [keepItem, hty, hne] using hk

/-- A dropped Commit's sha is present among the prior commit shas. -/
theorem not_keepItem_commit {prior : List Activity} {a : Activity}
    (hty : a.type = "Commit") (hk : keepItem prior a = false) :
    a.sha ∈ commitShaList prior := by
  by_contra hmem
  have : keepItem prior a = true := by simp [keepItem, hty, hmem]
  rw [this] at hk
  simp at hk

/-- A dropped Merge Request's key is present among the prior keys. -/
theorem not_keepItem_mr {prior : List Activity} {a : Activity}
    (hty : a.type = "Merge Request") (hk : keepItem prior a = false) :
    mrKey a ∈ mrKeyList prior := by
  have hne : ¬ (a.type = "Commit") := by simp [hty]
  by_contra hmem
  have : keepItem prior a = true := by simp [keepItem, hty, hne, hmem]
  rw [this] at hk
  simp at hk

/-! ## Helper lemmas about the merge-title regex -/

/-- `(.+)` always captures at least one character. -/
theorem restMatch_ne_nil : ∀ (r g2 : List Char), restMatch r = some g2 → g2 ≠ []
  | [], _, h => by simp [restMatch] at h
  | c :: cs, g2, h => by
    simp only [restMatch] at h
    split at h
    · rename_i g heq
      have hc : dotChar c := by
        by_contra hcc
        rw [if_neg hcc] at heq
        cases heq
      rw [if_pos hc] at heq
      cases h
      exact restMatch_ne_nil cs _ heq
    · rename_i heq
      split at h
      · split at h
        · cases h
        · rename_i hne
          cases h
          exact hne
      · cases h

theorem closeHere_ne_nil : ∀ (s g2 : List Char), closeHere s = some g2 → g2 ≠ []
  | [], _, h => by simp [closeHere] at h
  | q :: r, g2, h => by
    simp only [closeHere] at h
    split at h
    · exact restMatch_ne_nil r g2 h
    · cases h

theorem lazySplit_g2_ne_nil :
    ∀ (s g1 g2 : List Char), lazySplit s = some (g1, g2) → g2 ≠ []
  | [], _, _, h => by simp [lazySplit] at h
  | c :: cs, g1, g2, h => by
    simp only [lazySplit] at h
    split at h
    · split at h
      · rename_i g heq
        cases h
        exact closeHere_ne_nil cs g2 heq
      · split at h
        · rename_i g1' g2' heq
          cases h
          exact lazySplit_g2_ne_nil cs g1' g2 heq
        · cases h
    · cases h

theorem jsMergeMatchL_g2_ne_nil :
    ∀ (s g1 g2 : List Char), jsMergeMatchL s = some (g1, g2) → g2 ≠ []
  | [], _, _, h => by simp [jsMergeMatchL] at h
  | c :: cs, g1, g2, h => by
    simp only [jsMergeMatchL] at h
    split at h
    · split at h
      · rename_i heq
        have heq2 : lazySplit (List.drop mergeLit.length (c :: cs)) = some (g1, g2) := by
          first
          | exact heq
          | (cases h; exact heq)
        exact lazySplit_g2_ne_nil _ g1 g2 heq2
      · exact jsMergeMatchL_g2_ne_nil cs g1 g2 h
    · exact jsMergeMatchL_g2_ne_nil cs g1 g2 h

theorem jsMergeMatch_g2_ne_nil {s : String} {g1 g2 : List Char}
    (h : jsMergeMatch s = some (g1, g2)) : g2 ≠ [] :=
  jsMergeMatchL_g2_ne_nil s.toList g1 g2 h

theorem stringMk_ne_empty {l : List Char} (h : l ≠ []) : ¬ (String.mk l = "") := by
  intro he
  apply h
  have := congrArg String.data he
  simpa using this

/-! ## Stream membership lemmas -/

theorem mem_mrStream {p : ProjectData} {x : String × String × Activity}
    (hx : x ∈ mrStream p) :
    ∃ mrc ∈ p.mrs, ∃ c ∈ mrc.2, x = (c.author_email, c.id, mrCommitActivity mrc.1 c) := by
  rcases List.mem_flatMap.1 hx with ⟨mrc, hm, hx2⟩
  rcases List.mem_map.1 hx2 with ⟨c, hc, heq⟩
  exact ⟨mrc, hm, c, hc, heq.symm⟩

theorem mem_branchStream {p : ProjectData} {x : String × String × Activity}
    (hx : x ∈ branchStream p) :
    ∃ br ∈ p.branches, ∃ c ∈ br.2, x = (c.author_email, c.id, branchWalkEntry br.1 c) := by
  rcases List.mem_flatMap.1 hx with ⟨br, hb, hx2⟩
  rcases List.mem_map.1 hx2 with ⟨c, hc, heq⟩
  exact ⟨br, hb, c, hc, heq.symm⟩

theorem mrStream_mem {p : ProjectData} {mrc : MergeReq × List RawCommit} {c : RawCommit}
    (hm : mrc ∈ p.mrs) (hc : c ∈ mrc.2) :
    (c.author_email, c.id, mrCommitActivity mrc.1 c) ∈ mrStream p :=
  List.mem_flatMap.2 ⟨mrc, hm, List.mem_map.2 ⟨c, hc, rfl⟩⟩

/-- Both match outcomes of `branchWalkEntry` keep the raw commit's title. -/
theorem branchWalkEntry_title (bn : String) (c : RawCommit) :
    (branchWalkEntry bn c).title = c.title := by
  unfold branchWalkEntry
  cases h : jsMergeMatch c.title with
  | none => rfl
  | some g =>
    rcases g with ⟨g1, g2⟩
    rfl

/-- `branchWalkEntry` under a successful title match. -/
theorem branchWalkEntry_eq_some (bn : String) (c : RawCommit) {g1 g2 : List Char}
    (h : jsMergeMatch c.title = some (g1, g2)) :
    branchWalkEntry bn c =
      { type := "Commit", branch := some (jsOrStr (String.mk g2) bn),
        target_branch := some (jsOrStr (String.mk g2) bn), title := c.title,
        date := c.created_at, sha := some c.id, from_merge_request := false,
        mr_source := none, mr_target := none } := by
  unfold branchWalkEntry
  rw [h]

/-! ## Claim C9 -/

/-- C9 (amended): within one project's collection pass
(`getCommitsWithCorrectBranch`), every commit sha appears at most once among
the emitted activities, regardless of which branch or merge request produced
it — the single `seenCommits` set spans both the merge-request pass and the
branch-walk pass. -/
theorem c9_sha_unique_per_project (u : String) (p : ProjectData) :
    ((getCommitsWithCorrectBranch u p).map (·.sha)).Nodup :=
  (dedupCollect_nodup u (commitStream p) [] (streamWF_commitStream p)).1

/-- A commit that exists with the same sha and author in two distinct projects
(as happens with forks or mirrored repositories). -/
def sharedCommit : RawCommit :=
  { id := "x", title := "shared work", created_at := 0,
    author_email := "dev@example.com" }

def projOne : ProjectData :=
  { name := "P1", mrs := [], branches := [("main", [sharedCommit])] }

def projTwo : ProjectData :=
  { name := "P2", mrs := [], branches := [("main", [sharedCommit])] }

/-- C9 counterexample: the seen-set is created afresh inside each
`getCommitsWithCorrectBranch` call, so the same sha collected from two
projects of one run appears twice in the emitted batch, refuting the claim
that a sha appears at most once across the entire batch of a run. -/
theorem c9_counterexample :
    ¬ (commitShaList (collectAll "dev@example.com" [projOne, projTwo])).Nodup := by
  decide

/-! ## Claim C3 -/

/-- C3: if a commit sha appears both in some fetched merge request's commit
list and in a branch walk of the same project, authored by the configured user
in both, then the run emits an activity for that sha, every emitted activity
for it carries a merge-request-derived attribution (`branch = mr.source`,
`target_branch = mr.target`, `from_merge_request = true`, for a merge request
whose commit list contains the sha), and no branch-walk attribution
(`from_merge_request = false`) is ever emitted for that sha. -/
theorem c3_attribution_priority (u : String) (p : ProjectData) (X : String)
    (hmr : ∃ mrc ∈ p.mrs, ∃ c ∈ mrc.2, c.author_email = u ∧ c.id = X)
    (_hbr : ∃ br ∈ p.branches, ∃ c ∈ br.2, c.author_email = u ∧ c.id = X) :
    (∃ e ∈ getCommitsWithCorrectBranch u p, e.sha = some X) ∧
    (∀ e ∈ getCommitsWithCorrectBranch u p, e.sha = some X →
      e.from_merge_request = true ∧
      ∃ mrc ∈ p.mrs, (∃ c ∈ mrc.2, c.author_email = u ∧ c.id = X) ∧
        e.branch = some mrc.1.source ∧ e.target_branch = some mrc.1.target ∧
        e.mr_source = some mrc.1.source ∧ e.mr_target = some mrc.1.target) ∧
    (∀ e ∈ getCommitsWithCorrectBranch u p, e.from_merge_request = false →
      e.sha ≠ some X) := by
  rcases hmr with ⟨mrc, hmmem, c, hcmem, hcu, hcid⟩
  have hxin : (c.author_email, c.id, mrCommitActivity mrc.1 c) ∈ mrStream p :=
    mrStream_mem hmmem hcmem
  have hex : ∃ x ∈ mrStream p, x.1 = u ∧ x.2.1 = X :=
    ⟨(c.author_email, c.id, mrCommitActivity mrc.1 c), hxin, hcu, hcid⟩
  have happ : firstMatch u X (commitStream p) = firstMatch u X (mrStream p) :=
    firstMatch_append_left u X _ _ hex
  obtain ⟨a, ha⟩ := firstMatch_isSome u X (mrStream p) hex
  have hfil := dedupCollect_filter_eq u X (commitStream p) []
    (streamWF_commitStream p) (by simp)
  rw [happ, ha] at hfil
  rcases firstMatch_mem u X (mrStream p) a ha with ⟨x, hxmem, hxu, hxX, haeq⟩
  rcases mem_mrStream hxmem with ⟨mrc', hm', c', hc', hxeq⟩
  have hc'u : c'.author_email = u := by rw [hxeq] at hxu; exact hxu
  have hc'X : c'.id = X := by rw [hxeq] at hxX; exact hxX
  have haact : a = mrCommitActivity mrc'.1 c' := by rw [haeq, hxeq]
  have hsha : a.sha = some X := by rw [haact, ← hc'X]; rfl
  have hmemout : a ∈ getCommitsWithCorrectBranch u p := by
    have h2 : a ∈ (dedupCollect u [] (commitStream p)).filter
        (fun e => decide (e.sha = some X)) := by
      rw [hfil]
      simp
    exact List.mem_of_mem_filter h2
  have hmain : ∀ e ∈ getCommitsWithCorrectBranch u p, e.sha = some X → e = a := by
    intro e he hesha
    have h2 : e ∈ (dedupCollect u [] (commitStream p)).filter
        (fun e => decide (e.sha = some X)) :=
      List.mem_filter.2 ⟨he, by simp [hesha]⟩
    rw [hfil] at h2
    simpa using h2
  refine ⟨⟨a, hmemout, hsha⟩, ?_, ?_⟩
  · intro e he hesha
    have hea : e = a := hmain e he hesha
    subst hea
    rw [haact]
    exact ⟨rfl, mrc', hm', ⟨c', hc', hc'u, hc'X⟩, rfl, rfl, rfl, rfl⟩
  · intro e he hefmr hesha
    have hea : e = a := hmain e he hesha
    subst hea
    rw [haact] at hefmr
    cases hefmr

/-- The data of the spec's attribution-priority exemplar: commit `x` appears
both in the `feat → main` merge request's commit list and on the still-living
branch `feat`. -/
def featMR : MergeReq :=
  { iid := 1, sha := some "mc", source := "feat", target := "main",
    title := "Add login", date := 10 }

def sharedX : RawCommit :=
  { id := "x", title := "work", created_at := 3, author_email := "dev@example.com" }

def mrProject : ProjectData :=
  { name := "P", mrs := [(featMR, [sharedX])], branches := [("feat", [sharedX])] }

theorem c3_attribution_priority_witness :
    (∃ mrc ∈ mrProject.mrs, ∃ c ∈ mrc.2,
      c.author_email = "dev@example.com" ∧ c.id = "x") ∧
    (∃ br ∈ mrProject.branches, ∃ c ∈ br.2,
      c.author_email = "dev@example.com" ∧ c.id = "x") ∧
    ((∃ e ∈ getCommitsWithCorrectBranch "dev@example.com" mrProject,
        e.sha = some "x") ∧
      (∀ e ∈ getCommitsWithCorrectBranch "dev@example.com" mrProject,
        e.sha = some "x" →
        e.from_merge_request = true ∧
        ∃ mrc ∈ mrProject.mrs,
          (∃ c ∈ mrc.2, c.author_email = "dev@example.com" ∧ c.id = "x") ∧
          e.branch = some mrc.1.source ∧ e.target_branch = some mrc.1.target ∧
          e.mr_source = some mrc.1.source ∧ e.mr_target = some mrc.1.target) ∧
      (∀ e ∈ getCommitsWithCorrectBranch "dev@example.com" mrProject,
        e.from_merge_request = false → e.sha ≠ some "x")) :=
  ⟨by decide, by decide,
    c3_attribution_priority "dev@example.com" mrProject "x" (by decide) (by decide)⟩

/-! ## Claim C7 -/

/-- C7: a commit found only via the branch walk (no fetched merge request's
commit list contains its sha with the user as author) whose title matches the
merge pattern is emitted with `from_merge_request = false` and with both
`branch` and `target_branch` set to capture group 2 of the match.  (In the
source this goes through `mergeMatch[2] || branch.name`; the fallback to the
physical branch name is unreachable because group 2, a `(.+)` capture, is
never the empty string — see `jsMergeMatch_g2_ne_nil`.) -/
theorem c7_merge_title_attribution (u : String) (p : ProjectData) (e : Activity)
    (g1 g2 : List Char)
    (he : e ∈ getCommitsWithCorrectBranch u p)
    (honly : ∀ mrc ∈ p.mrs, ∀ c ∈ mrc.2, ¬ (c.author_email = u ∧ some c.id = e.sha))
    (hm : jsMergeMatch e.title = some (g1, g2)) :
    e.from_merge_request = false ∧ e.branch = some (String.mk g2) ∧
      e.target_branch = some (String.mk g2) := by
  rcases dedupCollect_subset u (commitStream p) [] e he with ⟨x, hx, hxu, hxe⟩
  rcases List.mem_append.1 hx with hx1 | hx2
  · exfalso
    rcases mem_mrStream hx1 with ⟨mrc, hmm, c, hcm, hxeq⟩
    apply honly mrc hmm c hcm
    constructor
    · rw [hxeq] at hxu
      exact hxu
    · rw [hxe, hxeq]
      rfl
  · rcases mem_branchStream hx2 with ⟨br, hbm, c, hcm, hxeq⟩
    have hee : e = branchWalkEntry br.1 c := by rw [hxe, hxeq]
    have htitle : jsMergeMatch c.title = some (g1, g2) := by
      rw [← branchWalkEntry_title br.1 c, ← hee]
      exact hm
    have hrec := branchWalkEntry_eq_some br.1 c htitle
    have hne : ¬ (String.mk g2 = "") :=
      stringMk_ne_empty (jsMergeMatch_g2_ne_nil htitle)
    have hor : jsOrStr (String.mk g2) br.1 = String.mk g2 := by
      unfold jsOrStr
      rw [if_neg hne]
    rw [hee, hrec]
    exact ⟨rfl, by rw [hor], by rw [hor]⟩

/-- The single-quote as a one-character string, for building titles without
apostrophes inside string literals. -/
def apos : String := String.mk [quoteChar]

/-- The spec exemplar title `Merge branch 'feat/login' into develop`. -/
def exampleMergeTitle : String :=
  "Merge branch " ++ apos ++ "feat/login" ++ apos ++ " into develop"

/-- A commit with the exemplar merge title, reachable only on branch `main`. -/
def mergeCommitRaw : RawCommit :=
  { id := "m1", title := exampleMergeTitle, created_at := 5,
    author_email := "dev@example.com" }

def walkProject : ProjectData :=
  { name := "P", mrs := [], branches := [("main", [mergeCommitRaw])] }

theorem c7_merge_title_attribution_witness :
    (branchWalkEntry "main" mergeCommitRaw ∈
      getCommitsWithCorrectBranch "dev@example.com" walkProject) ∧
    (∀ mrc ∈ walkProject.mrs, ∀ c ∈ mrc.2,
      ¬ (c.author_email = "dev@example.com" ∧
        some c.id = (branchWalkEntry "main" mergeCommitRaw).sha)) ∧
    jsMergeMatch (branchWalkEntry "main" mergeCommitRaw).title =
      some ("feat/login".toList, "develop".toList) ∧
    ((branchWalkEntry "main" mergeCommitRaw).from_merge_request = false ∧
      (branchWalkEntry "main" mergeCommitRaw).branch = some (String.mk "develop".toList) ∧
      (branchWalkEntry "main" mergeCommitRaw).target_branch = some (String.mk "develop".toList)) :=
  ⟨by decide, by decide, by decide,
    c7_merge_title_attribution "dev@example.com" walkProject
      (branchWalkEntry "main" mergeCommitRaw) "feat/login".toList "develop".toList
      (by decide) (by decide) (by decide)⟩

/-! ## Claim C1 -/

/-- C1 (amended): reconciliation preserves the dedup invariant — provided the
prior record and the new batch each contain no internal duplicates (no two
Commits with equal sha, no two Merge Requests with equal `(source, target)`
key), the full reconciled collection contains none either: the filter removes
exactly the cross-duplicates between batch and prior state.  (The unamended
claim over *every* input batch fails: the filter never compares batch items
against each other — see the counterexample.) -/
theorem c1_reconcile_dedup (newBatch prior : List Activity)
    (h1 : (commitShaList prior).Nodup) (h2 : (mrKeyList prior).Nodup)
    (h3 : (commitShaList newBatch).Nodup) (h4 : (mrKeyList newBatch).Nodup) :
    (commitShaList (reconcileFull newBatch prior)).Nodup ∧
      (mrKeyList (reconcileFull newBatch prior)).Nodup := by
  have hperm := reconcileFull_perm newBatch prior
  have hdelta := reconcileDelta_eq newBatch prior
  constructor
  · rw [(commitShaList_perm hperm).nodup_iff, commitShaList_append, List.nodup_append]
    refine ⟨h1, ?_, ?_⟩
    · rw [hdelta]
      have hsub : List.Sublist (commitShaList (newBatch.filter (keepItem prior)))
          (commitShaList newBatch) :=
        ((List.filter_sublist _).filter _).map _
      exact h3.sublist hsub
    · intro s hs1 hs2
      rw [hdelta] at hs2
      rcases mem_commitShaList.1 hs2 with ⟨a, ha, hty, hsha⟩
      rcases List.mem_filter.1 ha with ⟨_, hkeep⟩
      exact keepItem_commit hty hkeep (hsha ▸ hs1)
  · rw [(mrKeyList_perm hperm).nodup_iff, mrKeyList_append, List.nodup_append]
    refine ⟨h2, ?_, ?_⟩
    · rw [hdelta]
      have hsub : List.Sublist (mrKeyList (newBatch.filter (keepItem prior)))
          (mrKeyList newBatch) :=
        ((List.filter_sublist _).filter _).map _
      exact h4.sublist hsub
    · intro s hs1 hs2
      rw [hdelta] at hs2
      rcases mem_mrKeyList.1 hs2 with ⟨a, ha, hty, hsha⟩
      rcases List.mem_filter.1 ha with ⟨_, hkeep⟩
      exact keepItem_mr hty hkeep (hsha ▸ hs1)

/-- A commit activity occurring twice in one collected batch (as the
per-project seen-sets allow, see the C9 counterexample). -/
def dupCommitA : Activity := { type := "Commit", date := 0, sha := some "a" }

/-- C1 counterexample: with an empty prior state and a batch containing the
same Commit sha twice, the reconciled output keeps both copies — `reconcile`
does not deduplicate the batch against itself. -/
theorem c1_dedup_counterexample :
    ¬ (commitShaList (reconcileFull [dupCommitA, dupCommitA] [])).Nodup := by
  decide

def priorCommitW : Activity := { type := "Commit", date := 1, sha := some "p" }

def newCommitW : Activity := { type := "Commit", date := 2, sha := some "n" }

def newMRW : Activity :=
  { type := "Merge Request", date := 3, source := some "f", target := some "m" }

theorem c1_reconcile_dedup_witness :
    ((commitShaList [priorCommitW]).Nodup ∧ (mrKeyList [priorCommitW]).Nodup ∧
      (commitShaList [newCommitW, newMRW]).Nodup ∧
      (mrKeyList [newCommitW, newMRW]).Nodup) ∧
    ((commitShaList (reconcileFull [newCommitW, newMRW] [priorCommitW])).Nodup ∧
      (mrKeyList (reconcileFull [newCommitW, newMRW] [priorCommitW])).Nodup) :=
  ⟨by decide,
    c1_reconcile_dedup [newCommitW, newMRW] [priorCommitW]
      (by decide) (by decide) (by decide) (by decide)⟩

/-! ## Claim C6 -/

/-- C6: when the delta is empty and the prior record is non-empty, `saveAsJson`
short-circuits — it returns the prior record unchanged as the full record and
does not rewrite the structured-record file. -/
theorem c6_noop_short_circuit (newBatch prior : List Activity)
    (hd : reconcileDelta newBatch prior = []) (hp : prior ≠ []) :
    reconcileFull newBatch prior = prior ∧ reconcileWrote newBatch prior = false := by
  rw [reconcileDelta_eq] at hd
  unfold reconcileFull reconcileWrote reconcileCore
  rw [if_pos ⟨hd, hp⟩]
  exact ⟨rfl, rfl⟩

def seenCommitW : Activity := { type := "Commit", date := 4, sha := some "s" }

theorem c6_noop_short_circuit_witness :
    (reconcileDelta [seenCommitW] [seenCommitW] = [] ∧
      ([seenCommitW] : List Activity) ≠ []) ∧
    (reconcileFull [seenCommitW] [seenCommitW] = [seenCommitW] ∧
      reconcileWrote [seenCommitW] [seenCommitW] = false) :=
  ⟨by decide, c6_noop_short_circuit [seenCommitW] [seenCommitW] (by decide) (by decide)⟩

/-! ## Claim C10 -/

/-- C10: an item whose `type` is neither `"Commit"` nor `"Merge Request"`
always survives the reconciliation filter (the filter's final `return true`),
so it lands in the delta and is appended to the persisted collection on every
run in which it appears — it is never deduplicated against prior state. -/
theorem c10_foreign_type_kept (newBatch prior : List Activity) (item : Activity)
    (hin : item ∈ newBatch) (h1 : ¬ item.type = "Commit")
    (h2 : ¬ item.type = "Merge Request") :
    item ∈ reconcileDelta newBatch prior ∧ item ∈ reconcileFull newBatch prior := by
  have hkeep : keepItem prior item = true := by simp [keepItem, h1, h2]
  have hdelta : item ∈ reconcileDelta newBatch prior := by
    rw [reconcileDelta_eq]
    exact List.mem_filter.2 ⟨hin, hkeep⟩
  refine ⟨hdelta, ?_⟩
  rw [(reconcileFull_perm newBatch prior).mem_iff]
  exact List.mem_append.2 (Or.inr hdelta)

def foreignItem : Activity := { type := "Other", date := 0 }

theorem c10_foreign_type_kept_witness :
    (foreignItem ∈ ([foreignItem] : List Activity) ∧
      ¬ foreignItem.type = "Commit" ∧ ¬ foreignItem.type = "Merge Request") ∧
    (foreignItem ∈ reconcileDelta [foreignItem] [foreignItem] ∧
      foreignItem ∈ reconcileFull [foreignItem] [foreignItem]) :=
  ⟨by decide,
    c10_foreign_type_kept [foreignItem] [foreignItem] foreignItem
      (by decide) (by decide) (by decide)⟩

/-! ## Claim C5 -/

/-- C5 (amended): provided the prior record is already sorted descending by
date (true of every record the program itself writes), the reconciled full
record is sorted descending by the numeric date, and the sort is stable: for
every date, the entries carrying it appear in exactly the order of
`priorRecord ++ delta` — all prior entries before all new-batch entries,
each side in its original relative order.  (Unamended, the claim fails on the
short-circuit path, which returns an arbitrary prior record unsorted — see the
counterexample.) -/
theorem c5_sort_stable (newBatch prior : List Activity)
    (hp : List.Sorted dateDescRel prior) :
    List.Sorted dateDescRel (reconcileFull newBatch prior) ∧
    ∀ d : Int,
      (reconcileFull newBatch prior).filter (fun x => decide (x.date = d)) =
        (prior ++ reconcileDelta newBatch prior).filter (fun x => decide (x.date = d)) := by
  rw [reconcileDelta_eq]
  unfold reconcileFull reconcileCore
  by_cases h : newBatch.filter (keepItem prior) = [] ∧ prior ≠ []
  · rw [if_pos h]
    refine ⟨hp, fun d => ?_⟩
    rw [h.1]
    simp
  · rw [if_neg h]
    exact ⟨List.sorted_insertionSort dateDescRel _, fun d => filter_insertionSort_date d _⟩

def staleFirst : Activity := { type := "Commit", date := 0, sha := some "o1" }

def staleSecond : Activity := { type := "Commit", date := 1, sha := some "o2" }

/-- C5 counterexample: with an ascending (hand-made) prior record and an empty
delta, the short-circuit returns the prior record as the full record with an
adjacent pair whose earlier entry has the smaller date — the full record is
not sorted descending. -/
theorem c5_sort_counterexample :
    reconcileFull [] [staleFirst, staleSecond] = [staleFirst, staleSecond] ∧
      ¬ List.Sorted dateDescRel (reconcileFull [] [staleFirst, staleSecond]) := by
  constructor
  · decide
  · intro hs
    have h01 : dateDescRel staleFirst staleSecond :=
      List.rel_of_sorted_cons hs staleSecond (List.mem_cons_self ..)
    have : (1 : Int) ≤ 0 := h01
    omega

def sortedLate : Activity := { type := "Commit", date := 5, sha := some "w5" }

def sortedEarly : Activity := { type := "Commit", date := 2, sha := some "w2" }

def freshNine : Activity := { type := "Commit", date := 9, sha := some "w9" }

theorem c5_sort_stable_witness :
    List.Sorted dateDescRel [sortedLate, sortedEarly] ∧
    (List.Sorted dateDescRel (reconcileFull [freshNine] [sortedLate, sortedEarly]) ∧
    ∀ d : Int,
      (reconcileFull [freshNine] [sortedLate, sortedEarly]).filter
          (fun x => decide (x.date = d)) =
        ([sortedLate, sortedEarly] ++ reconcileDelta [freshNine] [sortedLate, sortedEarly]).filter
          (fun x => decide (x.date = d))) :=
  ⟨by
      constructor
      · intro b hb
        rcases List.mem_cons.1 hb with rfl | hb'
        · show (2 : Int) ≤ 5
          omega
        · simp at hb'
      · simp [List.sorted_singleton],
    c5_sort_stable [freshNine] [sortedLate, sortedEarly] (by
      constructor
      · intro b hb
        rcases List.mem_cons.1 hb with rfl | hb'
        · show (2 : Int) ≤ 5
          omega
        · simp at hb'
      · simp [List.sorted_singleton])⟩

/-! ## Claim C4 -/

/-- When the filter keeps nothing, the full record equals the prior record on
both branches (on the non-short-circuit branch both sides are empty). -/
theorem reconcileFull_delta_nil (newBatch prior : List Activity)
    (hd : newBatch.filter (keepItem prior) = []) :
    reconcileFull newBatch prior = prior := by
  unfold reconcileFull reconcileCore
  by_cases hp : prior = []
  · rw [if_neg (fun hcon => hcon.2 hp), hd, hp]
    rfl
  · rw [if_pos ⟨hd, hp⟩]

/-- C4 (amended): reconciliation is idempotent for batches whose items are all
typed `"Commit"` or `"Merge Request"` — every batch the program itself emits:
rerunning `reconcile` with the same batch against the first run's full record
yields an empty delta and the full record unchanged.  (Unamended, the claim
fails for items of any other type, which the filter always keeps — see the
counterexample and C10.) -/
theorem c4_reconcile_idempotent (newBatch prior : List Activity)
    (hty : ∀ a ∈ newBatch, a.type = "Commit" ∨ a.type = "Merge Request") :
    reconcileDelta newBatch (reconcileFull newBatch prior) = [] ∧
      reconcileFull newBatch (reconcileFull newBatch prior) =
        reconcileFull newBatch prior := by
  have hperm := reconcileFull_perm newBatch prior
  have hkeep : ∀ a ∈ newBatch, keepItem (reconcileFull newBatch prior) a = false := by
    intro a ha
    rcases hty a ha with htyc | htym
    · have hmem : a.sha ∈ commitShaList (reconcileFull newBatch prior) := by
        rw [(commitShaList_perm hperm).mem_iff, commitShaList_append]
        cases hk : keepItem prior a
        · exact List.mem_append.2 (Or.inl (not_keepItem_commit htyc hk))
        · refine List.mem_append.2 (Or.inr ?_)
          rw [reconcileDelta_eq]
          exact mem_commitShaList.2 ⟨a, List.mem_filter.2 ⟨ha, hk⟩, htyc, rfl⟩
      simp [keepItem, htyc, hmem]
    · have hnc : ¬ (a.type = "Commit") := by simp [htym]
      have hmem : mrKey a ∈ mrKeyList (reconcileFull newBatch prior) := by
        rw [(mrKeyList_perm hperm).mem_iff, mrKeyList_append]
        cases hk : keepItem prior a
        · exact List.mem_append.2 (Or.inl (not_keepItem_mr htym hk))
        · refine List.mem_append.2 (Or.inr ?_)
          rw [reconcileDelta_eq]
          exact mem_mrKeyList.2 ⟨a, List.mem_filter.2 ⟨ha, hk⟩, htym, rfl⟩
      simp [keepItem, htym, hnc, hmem]
  have hdelta2 : newBatch.filter (keepItem (reconcileFull newBatch prior)) = [] := by
    rw [List.filter_eq_nil_iff]
    intro a ha
    simp [hkeep a ha]
  constructor
  · rw [reconcileDelta_eq]
    exact hdelta2
  · exact reconcileFull_delta_nil newBatch (reconcileFull newBatch prior) hdelta2

def idemCommit : Activity := { type := "Commit", date := 7, sha := some "i" }

def idemMR : Activity :=
  { type := "Merge Request", date := 8, source := some "a", target := some "b" }

theorem c4_reconcile_idempotent_witness :
    (∀ a ∈ ([idemCommit, idemMR] : List Activity),
      a.type = "Commit" ∨ a.type = "Merge Request") ∧
    (reconcileDelta [idemCommit, idemMR]
        (reconcileFull [idemCommit, idemMR] []) = [] ∧
      reconcileFull [idemCommit, idemMR] (reconcileFull [idemCommit, idemMR] []) =
        reconcileFull [idemCommit, idemMR] []) :=
  ⟨by decide, c4_reconcile_idempotent [idemCommit, idemMR] [] (by decide)⟩

/-- C4 counterexample: a batch holding an item of a foreign type is not
idempotent — the item passes the filter again on the second run, producing a
non-empty delta and a grown full record. -/
theorem c4_idempotence_counterexample :
    reconcileDelta [foreignItem] (reconcileFull [foreignItem] []) ≠ [] ∧
      reconcileFull [foreignItem] (reconcileFull [foreignItem] []) ≠
        reconcileFull [foreignItem] [] := by
  decide

/-! ## Claim C8 -/

/-- C8: `extractExistingFromJson` tolerates an absent prior-state file — it
returns empty identity sets and empty prior data before any read, rather than
raising — and tolerates a present but unparseable file: the `try`/`catch`
swallows the parse failure, prints the warning, and returns empty identity
sets and data, so the run continues (the embedding is a total function). -/
theorem c8_extract_tolerant :
    extractExistingFromJson PriorFile.absent =
      { shas := [], mrs := [], data := [], warned := false } ∧
    extractExistingFromJson PriorFile.unparseable =
      { shas := [], mrs := [], data := [], warned := true } :=
  ⟨rfl, rfl⟩

/-! ## Claim C2 -/

/-- An activity on 1 May 2024 (instant embedded as 100). -/
def meiActivity : Activity := { type := "Commit", date := 100, sha := some "cm" }

/-- An activity on 10 June 2024 (instant embedded as 200). -/
def juniActivity : Activity := { type := "Commit", date := 200, sha := some "cj" }

/-- `dayjs(…).format("dddd, D MMMM YYYY")` under locale `id` for 1 May 2024. -/
def meiLabel : String := "Rabu, 1 Mei 2024"

/-- The same format for 10 June 2024. -/
def juniLabel : String := "Senin, 10 Juni 2024"

/-- C2 (code bug): the day sections are ordered with
`sort(([a],[b]) => new Date(b) - new Date(a))` over the *formatted labels*.
Under the configured Indonesian locale these labels are not parseable
timestamps (`new Date("Rabu, 1 Mei 2024")` is `Invalid Date` in Node: the
weekday and month words are not recognized), every comparison is `NaN`,
`SortCompare` maps it to `+0`, and the stable sort leaves the sections in
first-appearance order.  With the May activity encountered first, the May
section is emitted before the June section even though its day is the earlier
instant — refuting the claim that adjacent sections descend by the day's
represented instant. -/
theorem c2_day_order_bug (format : Int → String) (parse : String → Option Int)
    (hf1 : format 100 = meiLabel) (hf2 : format 200 = juniLabel)
    (hp1 : parse meiLabel = none) (hp2 : parse juniLabel = none) :
    (markdownDaySections format parse [meiActivity, juniActivity]).map Prod.fst =
      [meiLabel, juniLabel] ∧ meiActivity.date < juniActivity.date := by
  have hf1' : format meiActivity.date = meiLabel := hf1
  have hf2' : format juniActivity.date = juniLabel := hf2
  constructor
  · have hgroup : groupByDay format [meiActivity, juniActivity] =
        [(meiLabel, [meiActivity]), (juniLabel, [juniActivity])] := by
      unfold groupByDay
      simp only [List.foldl]
      rw [hf1', hf2']
      decide
    have hrel : entryRel parse (meiLabel, [meiActivity]) (juniLabel, [juniActivity]) := by
      unfold entryRel labelCmp
      rw [hp1, hp2]
    unfold markdownDaySections sortEntries
    rw [hgroup]
    simp only [List.insertionSort, List.orderedInsert]
    rw [if_pos hrel]
    rfl
  · decide

theorem c2_day_order_bug_witness :
    ((fun d : Int => if d = 100 then meiLabel else juniLabel) 100 = meiLabel ∧
      (fun d : Int => if d = 100 then meiLabel else juniLabel) 200 = juniLabel ∧
      (fun _ : String => (none : Option Int)) meiLabel = none ∧
      (fun _ : String => (none : Option Int)) juniLabel = none) ∧
    ((markdownDaySections (fun d : Int => if d = 100 then meiLabel else juniLabel)
        (fun _ : String => (none : Option Int))
        [meiActivity, juniActivity]).map Prod.fst = [meiLabel, juniLabel] ∧
      meiActivity.date < juniActivity.date) :=
  ⟨by refine ⟨by decide, by decide, rfl, rfl⟩,
    c2_day_order_bug (fun d : Int => if d = 100 then meiLabel else juniLabel)
      (fun _ : String => (none : Option Int)) (by decide) (by decide) rfl rfl⟩
